import Mathlib

/-!
Verification of the factor-graph core (`src/src/shogun/structure/FactorGraph.h`):
the `CDisjointSet` union-find substrate and the `CFactorGraph` topology and
energy-evaluation layer.  The header in the repository carries only the
declarations of these members; every operation body below is therefore a
shallow embedding reconstructed from the specification's description of that
operation, as indicated in each doc comment.  Element ids and variable indices
are modelled as `Nat` (the C++ code uses non-negative `int32_t` ids, with
negative ids excluded by the out-of-range contract), energies as `ℚ`.
-/

namespace Shogun

/-- Modelled from the spec: the `CDisjointSet` state — a fixed universe of
`n` element ids, a parent map (self-parenting marks a root), a rank map used
only to decide merge direction, and the `is_connected` flag recording whether
a union-find pass has completed. -/
structure DisjointSet where
  n : Nat
  parent : List Nat
  rank : List Nat
  connected : Bool
deriving Repr, DecidableEq

/-- Modelled from the spec: the `CDisjointSet(num_elements)` constructor stores
the element count; the arrays are populated by `make_sets`. -/
def mkDisjointSet (num : Nat) : DisjointSet :=
  ⟨num, [], [], false⟩

/-- Modelled from the spec: `make_sets` resets all `num_elements` entries to
singleton sets (`parent[i] = i`, `rank[i] = 0`) and clears `is_connected`. -/
def make_sets (ds : DisjointSet) : DisjointSet :=
  ⟨ds.n, List.range ds.n, List.replicate ds.n 0, false⟩

/-- Parent-chasing without mutation: follow the parent map from `x` until a
self-parented root is found.  `fuel` bounds the number of steps so the
function is total on arbitrary parent maps; on a well-formed forest the fuel
is never exhausted (`findRootAux_isSome_of_wf`). -/
def findRootAux (parent : List Nat) : Nat → Nat → Option Nat
  | 0, _ => none
  | fuel + 1, x =>
    if parent.getD x 0 = x then some x else findRootAux parent fuel (parent.getD x 0)

/-- Modelled from the spec: the recursive body of `find_set` — chase parents to
the root and, on the way back, relink every visited node directly to the
discovered root (path compression).  Returns the root together with the
updated parent map. -/
def findAux (parent : List Nat) : Nat → Nat → Option (Nat × List Nat)
  | 0, _ => none
  | fuel + 1, x =>
    if parent.getD x 0 = x then some (x, parent)
    else
      match findAux parent fuel (parent.getD x 0) with
      | none => none
      | some (r, par) => some (r, par.set x r)

/-- The sequence of nodes visited (and relinked) by `find_set` before reaching
the root: `x`, its parent, and so on, the root itself excluded. -/
def pathAux (parent : List Nat) : Nat → Nat → List Nat
  | 0, _ => []
  | fuel + 1, x =>
    if parent.getD x 0 = x then []
    else x :: pathAux parent fuel (parent.getD x 0)

/-- Modelled from the spec: `find_set(x)` requires `0 <= x < num_elements` and
fails (out-of-range error, here `none`) otherwise; on success it returns the
representative of x's set and performs path compression on the visited
path. -/
def find_set (ds : DisjointSet) (x : Nat) : Option (Nat × DisjointSet) :=
  if x < ds.n then
    match findAux ds.parent (ds.n + 1) x with
    | none => none
    | some (r, par) => some (r, ⟨ds.n, par, ds.rank, ds.connected⟩)
  else none

/-- The root of `x`'s set read off without mutation (`none` when parent
chasing does not terminate within the fuel bound). -/
def rootOf? (ds : DisjointSet) (x : Nat) : Option Nat :=
  findRootAux ds.parent (ds.n + 1) x

/-- The root of `x`'s set, defaulting to `x` itself. -/
def rootOf (ds : DisjointSet) (x : Nat) : Nat :=
  (rootOf? ds x).getD x

/-- Modelled from the spec: `link_set(xroot, yroot)` requires both arguments to
be distinct self-parented roots (a violation is detected and fails rather than
corrupting the forest).  Merges by rank: the root with strictly greater rank
becomes the new root; on tied rank one side becomes the new root and its rank
is incremented.  Returns the new root. -/
def link_set (ds : DisjointSet) (xr yr : Nat) : Option (Nat × DisjointSet) :=
  if xr < ds.n ∧ yr < ds.n ∧ ds.parent.getD xr 0 = xr ∧ ds.parent.getD yr 0 = yr ∧ xr ≠ yr then
    if ds.rank.getD yr 0 < ds.rank.getD xr 0 then
      some (xr, { ds with parent := ds.parent.set yr xr })
    else if ds.rank.getD xr 0 = ds.rank.getD yr 0 then
      some (yr, { ds with parent := ds.parent.set xr yr,
                          rank := ds.rank.set yr (ds.rank.getD yr 0 + 1) })
    else
      some (yr, { ds with parent := ds.parent.set xr yr })
  else none

/-- Modelled from the spec: `union_set(x, y)` finds the roots of x and y; if
they are equal it returns `false` (already in the same set); otherwise it
links the two roots and returns `true`. -/
def union_set (ds : DisjointSet) (x y : Nat) : Option (Bool × DisjointSet) :=
  match find_set ds x with
  | none => none
  | some (xr, ds1) =>
    match find_set ds1 y with
    | none => none
    | some (yr, ds2) =>
      if xr = yr then some (false, ds2)
      else
        match link_set ds2 xr yr with
        | none => none
        | some (_, ds3) => some (true, ds3)

/-- Modelled from the spec: `is_same_set(x, y)` is `find_set(x) == find_set(y)`;
read-only on the partition but triggers path compression as a side effect. -/
def is_same_set (ds : DisjointSet) (x y : Nat) : Option (Bool × DisjointSet) :=
  match find_set ds x with
  | none => none
  | some (xr, ds1) =>
    match find_set ds1 y with
    | none => none
    | some (yr, ds2) => some (decide (xr = yr), ds2)

/-- The distinct members of a list in first-seen order. -/
def firstSeen : List Nat → List Nat
  | [] => []
  | x :: xs => x :: firstSeen (xs.filter (fun y => decide (y ≠ x)))
termination_by l => l.length
decreasing_by
  simp only [List.length_cons]
  exact Nat.lt_succ_of_le (List.length_filter_le _ xs)

/-- Modelled from the spec: `get_unique_labeling` scans elements `0..N-1` and
assigns each a dense label in `[0, k)`, equal labels iff equal roots, new
labels handed out in first-seen order; returns the labels and `k`. -/
def get_unique_labeling (ds : DisjointSet) : List Nat × Nat :=
  let roots := (List.range ds.n).map (rootOf ds)
  let fs := firstSeen roots
  (roots.map (fun r => fs.indexOf r), fs.length)

/-- Modelled from the spec: `get_num_sets` is the number of distinct roots
among all elements (full scan with find). -/
def get_num_sets (ds : DisjointSet) : Nat :=
  (((List.range ds.n).map (rootOf ds)).dedup).length

/-- Modelled from the spec: plain accessor for the connection flag. -/
def get_connected (ds : DisjointSet) : Bool :=
  ds.connected

/-- Modelled from the spec: plain mutator for the connection flag. -/
def set_connected (ds : DisjointSet) (b : Bool) : DisjointSet :=
  { ds with connected := b }

/-- Well-formedness of a disjoint-set state: the arrays have `n` entries, every
parent pointer stays inside the universe, and rank strictly increases along
every non-trivial parent edge (the union-by-rank invariant, which in
particular rules out cycles in the parent structure). -/
def WF (ds : DisjointSet) : Prop :=
  ds.parent.length = ds.n ∧ ds.rank.length = ds.n ∧
    (∀ x, x < ds.n → ds.parent.getD x 0 < ds.n) ∧
    (∀ x, x < ds.n → ds.parent.getD x 0 ≠ x →
      ds.rank.getD x 0 < ds.rank.getD (ds.parent.getD x 0) 0)

instance (ds : DisjointSet) : Decidable (WF ds) := by
  unfold WF
  infer_instance

/-! Basic list-access helpers. -/

theorem getD_set_self (l : List Nat) (i a : Nat) (h : i < l.length) :
    (l.set i a).getD i 0 = a := by
  simp [List.getD_eq_getElem?_getD, List.getElem?_set, h]

theorem getD_set_ne (l : List Nat) (i a z : Nat) (h : z ≠ i) :
    (l.set i a).getD z 0 = l.getD z 0 := by
  simp [List.getD_eq_getElem?_getD, List.getElem?_set, (Ne.symm h : i ≠ z)]

theorem getD_range (n x : Nat) (h : x < n) : (List.range n).getD x 0 = x := by
  simp [List.getD_eq_getElem?_getD, List.getElem?_range, h]

theorem getD_replicate (n a x : Nat) (h : x < n) : (List.replicate n a).getD x 0 = a := by
  simp [List.getD_eq_getElem?_getD, List.getElem?_replicate, h]

/-! Lemmas about parent chasing without mutation. -/

theorem findRootAux_mono {parent : List Nat} :
    ∀ {fuel fuel2 x r : Nat}, findRootAux parent fuel x = some r → fuel ≤ fuel2 →
      findRootAux parent fuel2 x = some r := by
  intro fuel
  induction fuel with
  | zero => intro fuel2 x r h _; simp [findRootAux] at h
  | succ n ih =>
    intro fuel2 x r h hle
    obtain ⟨m, rfl⟩ : ∃ m, fuel2 = m + 1 :=
      ⟨fuel2 - 1, (Nat.succ_pred_eq_of_pos (Nat.lt_of_lt_of_le (Nat.succ_pos n) hle)).symm⟩
    rw [findRootAux] at h ⊢
    by_cases hp : parent.getD x 0 = x
    · rw [if_pos hp] at h ⊢; exact h
    · rw [if_neg hp] at h ⊢
      exact ih h (Nat.le_of_succ_le_succ hle)

theorem findRootAux_parent_root {parent : List Nat} :
    ∀ {fuel x r : Nat}, findRootAux parent fuel x = some r → parent.getD r 0 = r := by
  intro fuel
  induction fuel with
  | zero => intro x r h; simp [findRootAux] at h
  | succ n ih =>
    intro x r h
    rw [findRootAux] at h
    by_cases hp : parent.getD x 0 = x
    · rw [if_pos hp] at h
      cases h
      exact hp
    · rw [if_neg hp] at h
      exact ih h

/-- The number of elements of strictly greater rank than `x`: the measure that
shrinks along every non-trivial parent edge of a well-formed forest. -/
def cardAbove (ds : DisjointSet) (x : Nat) : Nat :=
  ((Finset.range ds.n).filter (fun z => ds.rank.getD x 0 < ds.rank.getD z 0)).card

theorem cardAbove_le (ds : DisjointSet) (x : Nat) : cardAbove ds x ≤ ds.n := by
  calc ((Finset.range ds.n).filter (fun z => ds.rank.getD x 0 < ds.rank.getD z 0)).card
      ≤ (Finset.range ds.n).card := Finset.card_filter_le _ _
    _ = ds.n := Finset.card_range ds.n

theorem cardAbove_parent_lt {ds : DisjointSet} (h : WF ds) {x : Nat} (hx : x < ds.n)
    (hp : ds.parent.getD x 0 ≠ x) : cardAbove ds (ds.parent.getD x 0) < cardAbove ds x := by
  have hrk : ds.rank.getD x 0 < ds.rank.getD (ds.parent.getD x 0) 0 := h.2.2.2 x hx hp
  have hpb : ds.parent.getD x 0 < ds.n := h.2.2.1 x hx
  apply Finset.card_lt_card
  constructor
  · intro z hz
    simp only [Finset.mem_filter, Finset.mem_range] at hz ⊢
    exact ⟨hz.1, lt_trans hrk hz.2⟩
  · intro hsub
    have : ds.parent.getD x 0 ∈
        (Finset.range ds.n).filter (fun z => ds.rank.getD x 0 < ds.rank.getD z 0) := by
      simp only [Finset.mem_filter, Finset.mem_range]
      exact ⟨hpb, hrk⟩
    have := hsub this
    simp only [Finset.mem_filter, Finset.mem_range] at this
    exact lt_irrefl _ this.2

theorem findRootAux_isSome_of_fuel {ds : DisjointSet} (h : WF ds) :
    ∀ fuel x, x < ds.n → cardAbove ds x < fuel → (findRootAux ds.parent fuel x).isSome := by
  intro fuel
  induction fuel with
  | zero => intro x _ hf; exact absurd hf (Nat.not_lt_zero _)
  | succ n ih =>
    intro x hx hf
    rw [findRootAux]
    by_cases hp : ds.parent.getD x 0 = x
    · rw [if_pos hp]; rfl
    · rw [if_neg hp]
      exact ih (ds.parent.getD x 0) (h.2.2.1 x hx)
        (lt_of_lt_of_le (cardAbove_parent_lt h hx hp) (Nat.le_of_lt_succ hf))

theorem findRootAux_isSome {ds : DisjointSet} (h : WF ds) {x : Nat} (hx : x < ds.n) :
    (findRootAux ds.parent (ds.n + 1) x).isSome :=
  findRootAux_isSome_of_fuel h (ds.n + 1) x hx (Nat.lt_succ_of_le (cardAbove_le ds x))

theorem rootOf?_eq_some {ds : DisjointSet} (h : WF ds) {x : Nat} (hx : x < ds.n) :
    rootOf? ds x = some (rootOf ds x) := by
  obtain ⟨r, hr⟩ := Option.isSome_iff_exists.mp (findRootAux_isSome h hx)
  have hrx : rootOf ds x = r := by
    unfold rootOf rootOf?
    rw [hr]
    rfl
  unfold rootOf?
  rw [hr, hrx]

/-- A reusable induction principle along parent edges of a well-formed
forest. -/
theorem WF.induction {ds : DisjointSet} (h : WF ds) (C : Nat → Prop)
    (hroot : ∀ z, z < ds.n → ds.parent.getD z 0 = z → C z)
    (hstep : ∀ z, z < ds.n → ds.parent.getD z 0 ≠ z → ds.parent.getD z 0 < ds.n →
      C (ds.parent.getD z 0) → C z) :
    ∀ z, z < ds.n → C z := by
  have key : ∀ m z, z < ds.n → cardAbove ds z < m → C z := by
    intro m
    induction m with
    | zero => intro z _ hf; exact absurd hf (Nat.not_lt_zero _)
    | succ k ih =>
      intro z hz hf
      by_cases hp : ds.parent.getD z 0 = z
      · exact hroot z hz hp
      · have hpb : ds.parent.getD z 0 < ds.n := h.2.2.1 z hz
        exact hstep z hz hp hpb
          (ih _ hpb (lt_of_lt_of_le (cardAbove_parent_lt h hz hp) (Nat.le_of_lt_succ hf)))
  intro z hz
  exact key (ds.n + 1) z hz (Nat.lt_succ_of_le (cardAbove_le ds z))

theorem rootOf_self {ds : DisjointSet} {x : Nat} (hp : ds.parent.getD x 0 = x) :
    rootOf ds x = x := by
  unfold rootOf rootOf?
  rw [findRootAux, if_pos hp]
  rfl

theorem rootOf_step {ds : DisjointSet} (h : WF ds) {x : Nat} (hx : x < ds.n)
    (hp : ds.parent.getD x 0 ≠ x) : rootOf ds x = rootOf ds (ds.parent.getD x 0) := by
  have hpb : ds.parent.getD x 0 < ds.n := h.2.2.1 x hx
  have hlt : cardAbove ds (ds.parent.getD x 0) < ds.n := by
    exact lt_of_lt_of_le (cardAbove_parent_lt h hx hp) (cardAbove_le ds x)
  have hsome : (findRootAux ds.parent ds.n (ds.parent.getD x 0)).isSome :=
    findRootAux_isSome_of_fuel h ds.n _ hpb hlt
  obtain ⟨r, hr⟩ := Option.isSome_iff_exists.mp hsome
  have h1 : findRootAux ds.parent (ds.n + 1) x = some r := by
    rw [findRootAux, if_neg hp]
    exact hr
  have h2 : findRootAux ds.parent (ds.n + 1) (ds.parent.getD x 0) = some r :=
    findRootAux_mono hr (Nat.le_succ _)
  show (rootOf? ds x).getD x = (rootOf? ds (ds.parent.getD x 0)).getD (ds.parent.getD x 0)
  unfold rootOf?
  rw [h1, h2]
  rfl

theorem rootOf_isRoot {ds : DisjointSet} (h : WF ds) {x : Nat} (hx : x < ds.n) :
    ds.parent.getD (rootOf ds x) 0 = rootOf ds x := by
  have := rootOf?_eq_some h hx
  exact findRootAux_parent_root this

theorem rootOf_lt {ds : DisjointSet} (h : WF ds) : ∀ {x : Nat}, x < ds.n → rootOf ds x < ds.n := by
  have := WF.induction h (fun z => rootOf ds z < ds.n)
    (fun z hz hp => by show rootOf ds z < ds.n; rw [rootOf_self hp]; exact hz)
    (fun z hz hp _ hC => by show rootOf ds z < ds.n; rw [rootOf_step h hz hp]; exact hC)
  intro x hx
  exact this x hx

theorem rootOf_idem {ds : DisjointSet} (h : WF ds) {x : Nat} (hx : x < ds.n) :
    rootOf ds (rootOf ds x) = rootOf ds x :=
  rootOf_self (rootOf_isRoot h hx)

theorem rootOf_rank {ds : DisjointSet} (h : WF ds) :
    ∀ {x : Nat}, x < ds.n →
      x = rootOf ds x ∨ ds.rank.getD x 0 < ds.rank.getD (rootOf ds x) 0 := by
  have := WF.induction h
    (fun z => z = rootOf ds z ∨ ds.rank.getD z 0 < ds.rank.getD (rootOf ds z) 0)
    (fun z hz hp => Or.inl (rootOf_self hp).symm)
    (fun z hz hp hpb hC => by
      show z = rootOf ds z ∨ ds.rank.getD z 0 < ds.rank.getD (rootOf ds z) 0
      have hC2 : ds.parent.getD z 0 = rootOf ds (ds.parent.getD z 0) ∨
          ds.rank.getD (ds.parent.getD z 0) 0 <
            ds.rank.getD (rootOf ds (ds.parent.getD z 0)) 0 := hC
      have hrk : ds.rank.getD z 0 < ds.rank.getD (ds.parent.getD z 0) 0 := h.2.2.2 z hz hp
      rw [rootOf_step h hz hp]
      rcases hC2 with heq | hlt
      · exact Or.inr (by rw [← heq]; exact hrk)
      · exact Or.inr (lt_trans hrk hlt))
  intro x hx
  exact this x hx

/-! Lemmas about path compression. -/

theorem findAux_fst {parent : List Nat} :
    ∀ {fuel x : Nat}, Option.map Prod.fst (findAux parent fuel x) = findRootAux parent fuel x := by
  intro fuel
  induction fuel with
  | zero => intro x; rfl
  | succ n ih =>
    intro x
    rw [findAux, findRootAux]
    by_cases hp : parent.getD x 0 = x
    · rw [if_pos hp, if_pos hp]; rfl
    · rw [if_neg hp, if_neg hp]
      cases hfa : findAux parent n (parent.getD x 0) with
      | none =>
        have h2 := ih (x := parent.getD x 0)
        rw [hfa] at h2
        exact h2
      | some pr =>
        obtain ⟨r, par⟩ := pr
        have h2 := ih (x := parent.getD x 0)
        rw [hfa] at h2
        exact h2

theorem findAux_length {parent : List Nat} :
    ∀ {fuel x r : Nat} {par : List Nat},
      findAux parent fuel x = some (r, par) → par.length = parent.length := by
  intro fuel
  induction fuel with
  | zero => intro x r par h; simp [findAux] at h
  | succ n ih =>
    intro x r par h
    rw [findAux] at h
    by_cases hp : parent.getD x 0 = x
    · rw [if_pos hp] at h
      cases h
      rfl
    · rw [if_neg hp] at h
      cases hfa : findAux parent n (parent.getD x 0) with
      | none => rw [hfa] at h; cases h
      | some pr =>
        rw [hfa] at h
        cases h
        rw [List.length_set]
        exact ih hfa

theorem pathAux_root {parent : List Nat} :
    ∀ {fuel x r : Nat}, findRootAux parent fuel x = some r →
      ∀ z, z ∈ pathAux parent fuel x → findRootAux parent fuel z = some r := by
  intro fuel
  induction fuel with
  | zero => intro x r h z hz; simp [pathAux] at hz
  | succ n ih =>
    intro x r h z hz
    rw [pathAux] at hz
    by_cases hp : parent.getD x 0 = x
    · rw [if_pos hp] at hz; simp at hz
    · rw [if_neg hp] at hz
      rw [findRootAux, if_neg hp] at h
      rcases List.mem_cons.mp hz with rfl | hz2
      · rw [findRootAux, if_neg hp]
        exact h
      · exact findRootAux_mono (ih h z hz2) (Nat.le_succ n)

theorem findAux_getD {parent : List Nat}
    (hb : ∀ z, z < parent.length → parent.getD z 0 < parent.length) :
    ∀ {fuel x r : Nat} {par : List Nat}, x < parent.length →
      findAux parent fuel x = some (r, par) →
      ∀ z, (z ∈ pathAux parent fuel x → par.getD z 0 = r) ∧
        (z ∉ pathAux parent fuel x → par.getD z 0 = parent.getD z 0) := by
  intro fuel
  induction fuel with
  | zero => intro x r par _ h; simp [findAux] at h
  | succ n ih =>
    intro x r par hx h z
    rw [findAux] at h
    rw [pathAux]
    by_cases hp : parent.getD x 0 = x
    · rw [if_pos hp] at h ⊢
      cases h
      exact ⟨fun hz => absurd hz (List.not_mem_nil z), fun _ => rfl⟩
    · rw [if_neg hp] at h ⊢
      cases hfa : findAux parent n (parent.getD x 0) with
      | none => rw [hfa] at h; cases h
      | some pr =>
        obtain ⟨r0, par0⟩ := pr
        rw [hfa] at h
        have hpair : r = r0 ∧ par = par0.set x r0 := by
          have h2 := h.symm
          injection h2 with h3
          injection h3 with h4 h5
          exact ⟨h4, h5⟩
        obtain ⟨hreq, hpareq⟩ := hpair
        rw [hreq, hpareq]
        have hlen : par0.length = parent.length := findAux_length hfa
        have hrec := ih (hb x hx) hfa
        constructor
        · intro hz
          rcases List.mem_cons.mp hz with rfl | hz2
          · exact getD_set_self par0 z r0 (by rw [hlen]; exact hx)
          · by_cases hzx : z = x
            · subst hzx
              exact getD_set_self par0 z r0 (by rw [hlen]; exact hx)
            · rw [getD_set_ne par0 x r0 z hzx]
              exact (hrec z).1 hz2
        · intro hz
          have hzx : z ≠ x := fun hc => hz (by rw [hc]; exact List.mem_cons_self x _)
          have hz2 : z ∉ pathAux parent n (parent.getD x 0) :=
            fun hc => hz (List.mem_cons_of_mem x hc)
          rw [getD_set_ne par0 x r0 z hzx]
          exact (hrec z).2 hz2

/-- If each element's parent pointer is either unchanged or rewired straight to
that element's old root, every element keeps its old root. -/
theorem rootOf_eq_of_rewire {ds dt : DisjointSet} (h : WF ds) (h2 : WF dt)
    (hn : dt.n = ds.n) (hrw : ∀ z, z < ds.n →
      dt.parent.getD z 0 = ds.parent.getD z 0 ∨ rootOf ds z = dt.parent.getD z 0) :
    ∀ z, z < ds.n → rootOf dt z = rootOf ds z := by
  have main := WF.induction h2 (fun z => rootOf dt z = rootOf ds z)
    (fun z hz hp => by
      show rootOf dt z = rootOf ds z
      rw [rootOf_self hp]
      rcases hrw z (hn ▸ hz) with hun | hrt
      · rw [hp] at hun
        exact (rootOf_self hun.symm).symm
      · rw [hp] at hrt
        exact hrt.symm)
    (fun z hz hp hpb hC => by
      show rootOf dt z = rootOf ds z
      have hC2 : rootOf dt (dt.parent.getD z 0) = rootOf ds (dt.parent.getD z 0) := hC
      rw [rootOf_step h2 hz hp, hC2]
      rcases hrw z (hn ▸ hz) with hun | hrt
      · rw [hun]
        exact (rootOf_step h (hn ▸ hz) (hun ▸ hp)).symm
      · rw [← hrt]
        rw [rootOf_idem h (hn ▸ hz)])
  intro z hz
  exact main z (hn ▸ hz)

/-- Master lemma for `find_set` on a well-formed state and in-range element:
it succeeds, returns the root, relinks exactly the visited path to the root,
leaves the rest of the parent map alone, preserves well-formedness and
changes no element's root. -/
theorem find_set_spec_aux {ds : DisjointSet} (h : WF ds) {x : Nat} (hx : x < ds.n) :
    ∃ ds2, find_set ds x = some (rootOf ds x, ds2) ∧ WF ds2 ∧
      ds2.n = ds.n ∧ ds2.rank = ds.rank ∧ ds2.connected = ds.connected ∧
      (∀ z, z < ds.n → rootOf ds2 z = rootOf ds z) ∧
      (∀ z, z ∈ pathAux ds.parent (ds.n + 1) x → ds2.parent.getD z 0 = rootOf ds x) ∧
      (∀ z, z ∉ pathAux ds.parent (ds.n + 1) x → ds2.parent.getD z 0 = ds.parent.getD z 0) := by
  have hroot : findRootAux ds.parent (ds.n + 1) x = some (rootOf ds x) := rootOf?_eq_some h hx
  have hfst := @findAux_fst ds.parent (ds.n + 1) x
  rw [hroot] at hfst
  cases hfa : findAux ds.parent (ds.n + 1) x with
  | none => rw [hfa] at hfst; cases hfst
  | some pr =>
    obtain ⟨r0, par0⟩ := pr
    rw [hfa] at hfst
    have hr0 : r0 = rootOf ds x := by
      have : some r0 = some (rootOf ds x) := hfst
      cases this
      rfl
    subst hr0
    have hb : ∀ z, z < ds.parent.length → ds.parent.getD z 0 < ds.parent.length := by
      intro z hz
      rw [h.1] at hz ⊢
      exact h.2.2.1 z hz
    have hchar := findAux_getD hb (h.1 ▸ hx) hfa
    have hlen : par0.length = ds.n := by rw [findAux_length hfa, h.1]
    refine ⟨⟨ds.n, par0, ds.rank, ds.connected⟩, ?_, ?_, rfl, rfl, rfl, ?_, ?_, ?_⟩
    · unfold find_set
      rw [if_pos hx, hfa]
    · -- well-formedness of the compressed state
      have hrlt : rootOf ds x < ds.n := rootOf_lt h hx
      refine ⟨hlen, h.2.1, ?_, ?_⟩
      · intro z hz
        by_cases hmem : z ∈ pathAux ds.parent (ds.n + 1) x
        · show par0.getD z 0 < ds.n
          rw [(hchar z).1 hmem]
          exact hrlt
        · show par0.getD z 0 < ds.n
          rw [(hchar z).2 hmem]
          exact h.2.2.1 z hz
      · intro z hz hne
        by_cases hmem : z ∈ pathAux ds.parent (ds.n + 1) x
        · show ds.rank.getD z 0 < ds.rank.getD (par0.getD z 0) 0
          have hzeq : par0.getD z 0 = rootOf ds x := (hchar z).1 hmem
          rw [hzeq]
          have hzroot : findRootAux ds.parent (ds.n + 1) z = some (rootOf ds x) :=
            pathAux_root hroot z hmem
          have hzr : rootOf ds z = rootOf ds x := by
            show (rootOf? ds z).getD z = rootOf ds x
            unfold rootOf?
            rw [hzroot]
            rfl
          rcases rootOf_rank h hz with heq | hlt
          · exfalso
            rw [hzeq] at hne
            exact hne (by rw [heq, hzr])
          · rw [← hzr]
            exact hlt
        · show ds.rank.getD z 0 < ds.rank.getD (par0.getD z 0) 0
          have hzeq : par0.getD z 0 = ds.parent.getD z 0 := (hchar z).2 hmem
          rw [hzeq]
          rw [hzeq] at hne
          exact h.2.2.2 z hz hne
    · -- no element's root changes
      intro z hz
      have h2 : WF ⟨ds.n, par0, ds.rank, ds.connected⟩ := by
        have hrlt : rootOf ds x < ds.n := rootOf_lt h hx
        refine ⟨hlen, h.2.1, ?_, ?_⟩
        · intro w hw
          by_cases hmem : w ∈ pathAux ds.parent (ds.n + 1) x
          · show par0.getD w 0 < ds.n
            rw [(hchar w).1 hmem]; exact hrlt
          · show par0.getD w 0 < ds.n
            rw [(hchar w).2 hmem]; exact h.2.2.1 w hw
        · intro w hw hne
          by_cases hmem : w ∈ pathAux ds.parent (ds.n + 1) x
          · show ds.rank.getD w 0 < ds.rank.getD (par0.getD w 0) 0
            have hweq : par0.getD w 0 = rootOf ds x := (hchar w).1 hmem
            rw [hweq]
            have hwroot : findRootAux ds.parent (ds.n + 1) w = some (rootOf ds x) :=
              pathAux_root hroot w hmem
            have hwr : rootOf ds w = rootOf ds x := by
              show (rootOf? ds w).getD w = rootOf ds x
              unfold rootOf?
              rw [hwroot]
              rfl
            rcases rootOf_rank h hw with heq | hlt
            · exfalso
              rw [hweq] at hne
              exact hne (by rw [heq, hwr])
            · rw [← hwr]; exact hlt
          · show ds.rank.getD w 0 < ds.rank.getD (par0.getD w 0) 0
            have hweq : par0.getD w 0 = ds.parent.getD w 0 := (hchar w).2 hmem
            rw [hweq]
            rw [hweq] at hne
            exact h.2.2.2 w hw hne
      apply rootOf_eq_of_rewire h h2 rfl
      · intro w hw
        by_cases hmem : w ∈ pathAux ds.parent (ds.n + 1) x
        · right
          have hweq : par0.getD w 0 = rootOf ds x := (hchar w).1 hmem
          have hwroot : findRootAux ds.parent (ds.n + 1) w = some (rootOf ds x) :=
            pathAux_root hroot w hmem
          have hwr : rootOf ds w = rootOf ds x := by
            show (rootOf? ds w).getD w = rootOf ds x
            unfold rootOf?
            rw [hwroot]
            rfl
          rw [hwr]
          exact hweq.symm
        · left
          exact (hchar w).2 hmem
      · exact hz
    · intro z hmem
      exact (hchar z).1 hmem
    · intro z hmem
      exact (hchar z).2 hmem

/-! Lemmas about linking and unions. -/

theorem parent_ne_of_root_ne {ds : DisjointSet} (h : WF ds) {w : Nat} (hw : w < ds.n)
    (hp : ds.parent.getD w 0 ≠ w) : rootOf ds w ≠ w := by
  have h1 : ds.rank.getD w 0 < ds.rank.getD (ds.parent.getD w 0) 0 := h.2.2.2 w hw hp
  have hpb : ds.parent.getD w 0 < ds.n := h.2.2.1 w hw
  have hstep : rootOf ds w = rootOf ds (ds.parent.getD w 0) := rootOf_step h hw hp
  have h2 : ds.rank.getD w 0 < ds.rank.getD (rootOf ds w) 0 := by
    rcases rootOf_rank h hpb with heq | hlt
    · rw [hstep, ← heq]
      exact h1
    · rw [hstep]
      exact lt_trans h1 hlt
  intro hc
  rw [hc] at h2
  exact lt_irrefl _ h2

theorem rootOf_eq_self_iff {ds : DisjointSet} (h : WF ds) {w : Nat} (hw : w < ds.n) :
    rootOf ds w = w ↔ ds.parent.getD w 0 = w := by
  constructor
  · intro hr
    by_contra hp
    exact parent_ne_of_root_ne h hw hp hr
  · exact rootOf_self

theorem WF_link {ds : DisjointSet} (h : WF ds) {lose win : Nat} (hl : lose < ds.n)
    (hw : win < ds.n) (hrk : ds.rank.getD lose 0 < ds.rank.getD win 0) (c : Bool) :
    WF ⟨ds.n, ds.parent.set lose win, ds.rank, c⟩ := by
  refine ⟨by rw [List.length_set]; exact h.1, h.2.1, ?_, ?_⟩
  · intro z hz
    by_cases hzl : z = lose
    · subst hzl
      show (ds.parent.set z win).getD z 0 < ds.n
      rw [getD_set_self ds.parent z win (by rw [h.1]; exact hl)]
      exact hw
    · show (ds.parent.set lose win).getD z 0 < ds.n
      rw [getD_set_ne ds.parent lose win z hzl]
      exact h.2.2.1 z hz
  · intro z hz hne
    by_cases hzl : z = lose
    · subst hzl
      show ds.rank.getD z 0 < ds.rank.getD ((ds.parent.set z win).getD z 0) 0
      rw [getD_set_self ds.parent z win (by rw [h.1]; exact hl)]
      exact hrk
    · show ds.rank.getD z 0 < ds.rank.getD ((ds.parent.set lose win).getD z 0) 0
      rw [getD_set_ne ds.parent lose win z hzl]
      rw [getD_set_ne ds.parent lose win z hzl] at hne
      exact h.2.2.2 z hz hne

theorem WF_link_tie {ds : DisjointSet} (h : WF ds) {lose win : Nat} (hl : lose < ds.n)
    (hw : win < ds.n) (hwr : ds.parent.getD win 0 = win) (hne : lose ≠ win)
    (hrk : ds.rank.getD lose 0 = ds.rank.getD win 0) (c : Bool) :
    WF ⟨ds.n, ds.parent.set lose win,
        ds.rank.set win (ds.rank.getD win 0 + 1), c⟩ := by
  have hwrk : win < ds.rank.length := by rw [h.2.1]; exact hw
  refine ⟨by rw [List.length_set]; exact h.1, by rw [List.length_set]; exact h.2.1, ?_, ?_⟩
  · intro z hz
    by_cases hzl : z = lose
    · subst hzl
      show (ds.parent.set z win).getD z 0 < ds.n
      rw [getD_set_self ds.parent z win (by rw [h.1]; exact hl)]
      exact hw
    · show (ds.parent.set lose win).getD z 0 < ds.n
      rw [getD_set_ne ds.parent lose win z hzl]
      exact h.2.2.1 z hz
  · intro z hz hne2
    by_cases hzl : z = lose
    · subst hzl
      show (ds.rank.set win (ds.rank.getD win 0 + 1)).getD z 0 <
        (ds.rank.set win (ds.rank.getD win 0 + 1)).getD
          ((ds.parent.set z win).getD z 0) 0
      rw [getD_set_self ds.parent z win (by rw [h.1]; exact hl)]
      rw [getD_set_ne ds.rank win _ z hne]
      rw [getD_set_self ds.rank win _ hwrk]
      rw [hrk]
      exact Nat.lt_succ_self _
    · show (ds.rank.set win (ds.rank.getD win 0 + 1)).getD z 0 <
        (ds.rank.set win (ds.rank.getD win 0 + 1)).getD
          ((ds.parent.set lose win).getD z 0) 0
      rw [getD_set_ne ds.parent lose win z hzl]
      rw [getD_set_ne ds.parent lose win z hzl] at hne2
      have hzw : z ≠ win := by
        intro hc
        subst hc
        exact hne2 hwr
      rw [getD_set_ne ds.rank win _ z hzw]
      by_cases hpw : ds.parent.getD z 0 = win
      · rw [hpw, getD_set_self ds.rank win _ hwrk]
        have := h.2.2.2 z hz hne2
        rw [hpw] at this
        exact lt_trans this (Nat.lt_succ_self _)
      · rw [getD_set_ne ds.rank win _ _ hpw]
        exact h.2.2.2 z hz hne2

theorem rootOf_after_relink {ds dt : DisjointSet} (h : WF ds) (h2 : WF dt)
    (hn : dt.n = ds.n) {lose win : Nat} (hl : lose < ds.n) (hw : win < ds.n)
    (hlr : ds.parent.getD lose 0 = lose) (hwr : ds.parent.getD win 0 = win)
    (hne : lose ≠ win) (hpar : dt.parent = ds.parent.set lose win) :
    ∀ z, z < ds.n →
      rootOf dt z = if rootOf ds z = lose ∨ rootOf ds z = win then win
        else rootOf ds z := by
  have hlp : lose < ds.parent.length := by rw [h.1]; exact hl
  have hgl : dt.parent.getD lose 0 = win := by rw [hpar]; exact getD_set_self _ _ _ hlp
  have hother : ∀ z, z ≠ lose → dt.parent.getD z 0 = ds.parent.getD z 0 := by
    intro z hz
    rw [hpar]
    exact getD_set_ne _ _ _ _ hz
  have main := WF.induction h2
    (fun z => rootOf dt z = if rootOf ds z = lose ∨ rootOf ds z = win then win
      else rootOf ds z)
    (fun z hz hp => by
      show rootOf dt z = if rootOf ds z = lose ∨ rootOf ds z = win then win
        else rootOf ds z
      have hzl : z ≠ lose := by
        intro hc
        subst hc
        rw [hgl] at hp
        exact hne hp.symm
      have hpz : ds.parent.getD z 0 = z := by rw [← hother z hzl]; exact hp
      rw [rootOf_self hp, rootOf_self hpz]
      by_cases hzw : z = win
      · rw [if_pos (Or.inr hzw), hzw]
      · rw [if_neg ?_]
        intro hc
        rcases hc with hc | hc
        · exact hzl hc
        · exact hzw hc)
    (fun z hz hp hpb hC => by
      show rootOf dt z = if rootOf ds z = lose ∨ rootOf ds z = win then win
        else rootOf ds z
      have hC2 : rootOf dt (dt.parent.getD z 0) =
          if rootOf ds (dt.parent.getD z 0) = lose ∨ rootOf ds (dt.parent.getD z 0) = win
          then win else rootOf ds (dt.parent.getD z 0) := hC
      rw [rootOf_step h2 hz hp, hC2]
      by_cases hzl : z = lose
      · subst hzl
        rw [hgl]
        rw [rootOf_self hwr, rootOf_self hlr]
        rw [if_pos (Or.inr rfl), if_pos (Or.inl rfl)]
      · have hpz : dt.parent.getD z 0 = ds.parent.getD z 0 := hother z hzl
        rw [hpz]
        have hzn : z < ds.n := hn ▸ hz
        have hpne : ds.parent.getD z 0 ≠ z := by rw [← hpz]; exact hp
        rw [← rootOf_step h hzn hpne])
  intro z hz
  exact main z (hn ▸ hz)

theorem link_set_spec {ds : DisjointSet} (h : WF ds) {xr yr : Nat} (hx : xr < ds.n)
    (hy : yr < ds.n) (hxr : ds.parent.getD xr 0 = xr) (hyr : ds.parent.getD yr 0 = yr)
    (hne : xr ≠ yr) :
    ∃ nr ds2, link_set ds xr yr = some (nr, ds2) ∧ (nr = xr ∨ nr = yr) ∧ WF ds2 ∧
      ds2.n = ds.n ∧ ds2.connected = ds.connected ∧
      (∀ z, z < ds.n →
        rootOf ds2 z = if rootOf ds z = xr ∨ rootOf ds z = yr then nr
          else rootOf ds z) := by
  unfold link_set
  rw [if_pos ⟨hx, hy, hxr, hyr, hne⟩]
  by_cases hc1 : ds.rank.getD yr 0 < ds.rank.getD xr 0
  · rw [if_pos hc1]
    have hWF : WF ⟨ds.n, ds.parent.set yr xr, ds.rank, ds.connected⟩ := WF_link h hy hx hc1 _
    refine ⟨xr, _, rfl, Or.inl rfl, hWF, rfl, rfl, ?_⟩
    intro z hz
    have := rootOf_after_relink h hWF rfl hy hx hyr hxr (Ne.symm hne) rfl z hz
    rw [this]
    by_cases hcz : rootOf ds z = xr ∨ rootOf ds z = yr
    · rw [if_pos hcz, if_pos (Or.symm hcz)]
    · rw [if_neg hcz, if_neg (fun hc => hcz (Or.symm hc))]
  · rw [if_neg hc1]
    by_cases hc2 : ds.rank.getD xr 0 = ds.rank.getD yr 0
    · rw [if_pos hc2]
      have hWF : WF ⟨ds.n, ds.parent.set xr yr,
          ds.rank.set yr (ds.rank.getD yr 0 + 1), ds.connected⟩ :=
        WF_link_tie h hx hy hyr hne hc2 _
      refine ⟨yr, _, rfl, Or.inr rfl, hWF, rfl, rfl, ?_⟩
      intro z hz
      exact rootOf_after_relink h hWF rfl hx hy hxr hyr hne rfl z hz
    · rw [if_neg hc2]
      have hc3 : ds.rank.getD xr 0 < ds.rank.getD yr 0 :=
        lt_of_le_of_ne (Nat.le_of_not_lt hc1) hc2
      have hWF : WF ⟨ds.n, ds.parent.set xr yr, ds.rank, ds.connected⟩ := WF_link h hx hy hc3 _
      refine ⟨yr, _, rfl, Or.inr rfl, hWF, rfl, rfl, ?_⟩
      intro z hz
      exact rootOf_after_relink h hWF rfl hx hy hxr hyr hne rfl z hz

theorem union_set_spec {ds : DisjointSet} (h : WF ds) {x y : Nat} (hx : x < ds.n)
    (hy : y < ds.n) :
    ∃ b ds2, union_set ds x y = some (b, ds2) ∧ WF ds2 ∧ ds2.n = ds.n ∧
      b = decide (rootOf ds x ≠ rootOf ds y) ∧
      rootOf ds2 x = rootOf ds2 y ∧
      (∀ z, z < ds.n → rootOf ds2 z =
        if rootOf ds z = rootOf ds x ∨ rootOf ds z = rootOf ds y then rootOf ds2 x
        else rootOf ds z) ∧
      (rootOf ds x = rootOf ds y → ∀ z, z < ds.n → rootOf ds2 z = rootOf ds z) ∧
      (rootOf ds x ≠ rootOf ds y →
        rootOf ds2 x = rootOf ds x ∨ rootOf ds2 x = rootOf ds y) := by
  obtain ⟨dsa, hfa, hWFa, hna, hrka, hca, hpresa, _, _⟩ := find_set_spec_aux h hx
  obtain ⟨dsb, hfb, hWFb, hnb, hrkb, hcb, hpresb, _, _⟩ :=
    find_set_spec_aux hWFa (x := y) (by rw [hna]; exact hy)
  have hrb : rootOf dsa y = rootOf ds y := hpresa y hy
  have hpres2 : ∀ z, z < ds.n → rootOf dsb z = rootOf ds z := by
    intro z hz
    rw [hpresb z (by rw [hna]; exact hz), hpresa z hz]
  have hnb2 : dsb.n = ds.n := by rw [hnb, hna]
  simp only [union_set, hfa, hfb]
  by_cases heq : rootOf ds x = rootOf dsa y
  · rw [if_pos heq]
    have hxy : rootOf ds x = rootOf ds y := by rw [heq, hrb]
    refine ⟨false, dsb, rfl, hWFb, hnb2, by simp [hxy], ?_, ?_, ?_, ?_⟩
    · rw [hpres2 x hx, hpres2 y hy, hxy]
    · intro z hz
      rw [hpres2 z hz, hpres2 x hx]
      by_cases hcz : rootOf ds z = rootOf ds x ∨ rootOf ds z = rootOf ds y
      · rw [if_pos hcz]
        rcases hcz with hcz | hcz
        · exact hcz
        · rw [hcz, hxy]
      · rw [if_neg hcz]
    · intro _
      exact hpres2
    · intro hc
      exact absurd hxy hc
  · rw [if_neg heq]
    have hxy : rootOf ds x ≠ rootOf ds y := by rw [← hrb]; exact heq
    have hxrb : rootOf dsb x = rootOf ds x := hpres2 x hx
    have hyrb : rootOf dsb y = rootOf ds y := hpres2 y hy
    have hxroot : dsb.parent.getD (rootOf ds x) 0 = rootOf ds x := by
      rw [← rootOf_eq_self_iff hWFb (by rw [hnb2]; exact rootOf_lt h hx)]
      rw [hpres2 _ (rootOf_lt h hx)]
      exact rootOf_idem h hx
    have hyroot : dsb.parent.getD (rootOf dsa y) 0 = rootOf dsa y := by
      rw [hrb]
      rw [← rootOf_eq_self_iff hWFb (by rw [hnb2]; exact rootOf_lt h hy)]
      rw [hpres2 _ (rootOf_lt h hy)]
      exact rootOf_idem h hy
    obtain ⟨nr, ds3, hlink, hnrmem, hWF3, hn3, hc3, hroots3⟩ :=
      @link_set_spec dsb hWFb (rootOf ds x) (rootOf dsa y)
        (by rw [hnb2]; exact rootOf_lt h hx)
        (by rw [hnb2, hrb]; exact rootOf_lt h hy) hxroot hyroot heq
    simp only [hlink]
    have hroots3d : ∀ z, z < ds.n → rootOf ds3 z =
        if rootOf ds z = rootOf ds x ∨ rootOf ds z = rootOf ds y then nr
        else rootOf ds z := by
      intro z hz
      rw [hroots3 z (by rw [hnb2]; exact hz), hpres2 z hz, hrb]
    have hr3x : rootOf ds3 x = nr := by
      rw [hroots3d x hx, if_pos (Or.inl rfl)]
    have hr3y : rootOf ds3 y = nr := by
      rw [hroots3d y hy, if_pos (Or.inr rfl)]
    refine ⟨true, ds3, rfl, hWF3, by rw [hn3, hnb2], by simp [hxy], by rw [hr3x, hr3y],
      ?_, ?_, ?_⟩
    · intro z hz
      rw [hr3x]
      exact hroots3d z hz
    · intro hc
      exact absurd hc hxy
    · intro _
      rw [hr3x]
      rcases hnrmem with hnr | hnr
      · exact Or.inl hnr
      · exact Or.inr (hnr.trans hrb)

theorem is_same_set_spec {ds : DisjointSet} (h : WF ds) {x y : Nat} (hx : x < ds.n)
    (hy : y < ds.n) :
    ∃ ds2, is_same_set ds x y = some (decide (rootOf ds x = rootOf ds y), ds2) ∧
      WF ds2 ∧ ds2.n = ds.n ∧ (∀ z, z < ds.n → rootOf ds2 z = rootOf ds z) := by
  obtain ⟨dsa, hfa, hWFa, hna, _, _, hpresa, _, _⟩ := find_set_spec_aux h hx
  obtain ⟨dsb, hfb, hWFb, hnb, _, _, hpresb, _, _⟩ :=
    find_set_spec_aux hWFa (x := y) (by rw [hna]; exact hy)
  have hrb : rootOf dsa y = rootOf ds y := hpresa y hy
  have hpres2 : ∀ z, z < ds.n → rootOf dsb z = rootOf ds z := by
    intro z hz
    rw [hpresb z (by rw [hna]; exact hz), hpresa z hz]
  simp only [is_same_set, hfa, hfb, hrb]
  exact ⟨dsb, rfl, hWFb, by rw [hnb, hna], hpres2⟩

/-! Lemmas about initialization. -/

theorem make_sets_WF (ds : DisjointSet) : WF (make_sets ds) := by
  refine ⟨List.length_range ds.n, List.length_replicate ds.n 0, ?_, ?_⟩
  · intro z hz
    show (List.range ds.n).getD z 0 < ds.n
    rw [getD_range ds.n z hz]
    exact hz
  · intro z hz hne
    exact absurd (getD_range ds.n z hz) hne

theorem make_sets_rootOf (ds : DisjointSet) {z : Nat} (hz : z < ds.n) :
    rootOf (make_sets ds) z = z :=
  rootOf_self (getD_range ds.n z hz)

/-! Lemmas about component labeling. -/

theorem firstSeen_sublemma :
    ∀ (m : Nat) (l : List Nat), l.length ≤ m →
      (∀ a, a ∈ firstSeen l ↔ a ∈ l) ∧ (firstSeen l).Nodup := by
  intro m
  induction m with
  | zero =>
    intro l hl
    rw [Nat.le_zero, List.length_eq_zero] at hl
    subst hl
    exact ⟨fun a => by rw [firstSeen], by rw [firstSeen]; exact List.nodup_nil⟩
  | succ k ih =>
    intro l hl
    cases l with
    | nil => exact ⟨fun a => by rw [firstSeen], by rw [firstSeen]; exact List.nodup_nil⟩
    | cons x xs =>
      have hlen : (xs.filter (fun y => decide (y ≠ x))).length ≤ k :=
        le_trans (List.length_filter_le _ xs) (Nat.le_of_succ_le_succ hl)
      obtain ⟨hmem, hnd⟩ := ih _ hlen
      rw [firstSeen]
      constructor
      · intro a
        rw [List.mem_cons, List.mem_cons, hmem a, List.mem_filter]
        constructor
        · rintro (rfl | ⟨ha, _⟩)
          · exact Or.inl rfl
          · exact Or.inr ha
        · rintro (rfl | ha)
          · exact Or.inl rfl
          · by_cases hax : a = x
            · exact Or.inl hax
            · exact Or.inr ⟨ha, by simp [hax]⟩
      · refine List.nodup_cons.mpr ⟨?_, hnd⟩
        intro hc
        have := (hmem x).mp hc
        rw [List.mem_filter] at this
        simp at this

theorem mem_firstSeen (a : Nat) (l : List Nat) : a ∈ firstSeen l ↔ a ∈ l :=
  (firstSeen_sublemma l.length l le_rfl).1 a

theorem firstSeen_nodup (l : List Nat) : (firstSeen l).Nodup :=
  (firstSeen_sublemma l.length l le_rfl).2

theorem firstSeen_length_eq_dedup (l : List Nat) :
    (firstSeen l).length = l.dedup.length := by
  have h1 : (firstSeen l).toFinset = l.toFinset := by
    ext a
    rw [List.mem_toFinset, List.mem_toFinset, mem_firstSeen]
  calc (firstSeen l).length = (firstSeen l).toFinset.card :=
        (List.toFinset_card_of_nodup (firstSeen_nodup l)).symm
    _ = l.toFinset.card := by rw [h1]
    _ = l.dedup.length := List.card_toFinset l

theorem firstSeen_map (f : Nat → Nat) :
    ∀ (m : Nat) (l : List Nat), l.length ≤ m →
      (∀ a, a ∈ l → ∀ b, b ∈ l → f a = f b → a = b) →
      firstSeen (l.map f) = (firstSeen l).map f := by
  intro m
  induction m with
  | zero =>
    intro l hl _
    rw [Nat.le_zero, List.length_eq_zero] at hl
    subst hl
    simp [firstSeen]
  | succ k ih =>
    intro l hl hinj
    cases l with
    | nil => simp [firstSeen]
    | cons x xs =>
      rw [List.map_cons, firstSeen, firstSeen, List.map_cons]
      congr 1
      have hfil : (xs.map f).filter (fun y => decide (y ≠ f x)) =
          (xs.filter (fun y => decide (y ≠ x))).map f := by
        rw [List.filter_map]
        congr 1
        apply List.filter_congr
        intro a ha
        simp only [Function.comp_apply, decide_eq_decide]
        constructor
        · intro hne hc
          exact hne (by rw [hc])
        · intro hne hc
          exact hne (hinj a (List.mem_cons_of_mem x ha) x (List.mem_cons_self x xs) hc)
      rw [hfil]
      apply ih
      · exact le_trans (List.length_filter_le _ xs) (Nat.le_of_succ_le_succ hl)
      · intro a ha b hb hab
        exact hinj a (List.mem_cons_of_mem x (List.mem_of_mem_filter ha))
          b (List.mem_cons_of_mem x (List.mem_of_mem_filter hb)) hab

theorem map_indexOf_self :
    ∀ (fs : List Nat), fs.Nodup → fs.map (fun a => fs.indexOf a) = List.range fs.length := by
  intro fs
  induction fs with
  | nil => intro _; rfl
  | cons x rest ih =>
    intro hnd
    have hx : x ∉ rest := (List.nodup_cons.mp hnd).1
    have hrest : rest.Nodup := (List.nodup_cons.mp hnd).2
    rw [List.map_cons, List.indexOf_cons_self, List.length_cons, List.range_succ_eq_map]
    congr 1
    have h1 : rest.map (fun a => (x :: rest).indexOf a) =
        rest.map (fun a => rest.indexOf a + 1) := by
      apply List.map_congr_left
      intro a ha
      have hax : x ≠ a := fun hc => hx (hc ▸ ha)
      rw [List.indexOf_cons_ne _ hax]
    rw [h1]
    have h2 : rest.map (fun a => rest.indexOf a + 1) =
        (rest.map (fun a => rest.indexOf a)).map Nat.succ := by
      rw [List.map_map]
      rfl
    rw [h2, ih hrest]

theorem indexOf_inj {l : List Nat} {a b : Nat} (ha : a ∈ l) (hb : b ∈ l) :
    l.indexOf a = l.indexOf b ↔ a = b := by
  constructor
  · intro h
    have hal : l.indexOf a < l.length := List.indexOf_lt_length.mpr ha
    have hbl : l.indexOf b < l.length := List.indexOf_lt_length.mpr hb
    have h1 : l[l.indexOf a] = a := List.getElem_indexOf hal
    have h2 : l[l.indexOf b] = b := List.getElem_indexOf hbl
    rw [← h1, ← h2]
    congr 1
  · intro h
    rw [h]

theorem getD_map_lt (f : Nat → Nat) (l : List Nat) {i : Nat} (hi : i < l.length) :
    (l.map f).getD i 0 = f (l.getD i 0) := by
  rw [List.getD_eq_getElem?_getD, List.getD_eq_getElem?_getD, List.getElem?_map]
  rw [List.getElem?_eq_getElem hi]
  rfl

/-! Operation-level invariant preservation. -/

theorem find_set_none {ds : DisjointSet} {x : Nat} (hx : ¬ x < ds.n) :
    find_set ds x = none := by
  unfold find_set
  rw [if_neg hx]

theorem find_set_WF2 {ds : DisjointSet} (h : WF ds) {x : Nat} {p : Nat × DisjointSet}
    (heq : find_set ds x = some p) : WF p.2 ∧ p.2.n = ds.n := by
  by_cases hx : x < ds.n
  · obtain ⟨ds2, hf, hWF, hn, _⟩ := find_set_spec_aux h hx
    rw [hf] at heq
    cases heq
    exact ⟨hWF, hn⟩
  · rw [find_set_none hx] at heq
    cases heq

theorem union_set_WF2 {ds : DisjointSet} (h : WF ds) {x y : Nat} {p : Bool × DisjointSet}
    (heq : union_set ds x y = some p) : WF p.2 ∧ p.2.n = ds.n := by
  by_cases hx : x < ds.n
  · by_cases hy : y < ds.n
    · obtain ⟨b, ds2, hu, hWF, hn, _⟩ := union_set_spec h hx hy
      rw [hu] at heq
      cases heq
      exact ⟨hWF, hn⟩
    · obtain ⟨dsa, hfa, _, hna, _⟩ := find_set_spec_aux h hx
      have hfb : find_set dsa y = none := find_set_none (by rw [hna]; exact hy)
      simp only [union_set, hfa, hfb] at heq
      exact Option.noConfusion heq
  · have hfa : find_set ds x = none := find_set_none hx
    simp only [union_set, hfa] at heq
    exact Option.noConfusion heq

theorem is_same_set_WF2 {ds : DisjointSet} (h : WF ds) {x y : Nat} {p : Bool × DisjointSet}
    (heq : is_same_set ds x y = some p) : WF p.2 ∧ p.2.n = ds.n := by
  by_cases hx : x < ds.n
  · by_cases hy : y < ds.n
    · obtain ⟨ds2, hs, hWF, hn, _⟩ := is_same_set_spec h hx hy
      rw [hs] at heq
      cases heq
      exact ⟨hWF, hn⟩
    · obtain ⟨dsa, hfa, _, hna, _⟩ := find_set_spec_aux h hx
      have hfb : find_set dsa y = none := find_set_none (by rw [hna]; exact hy)
      simp only [is_same_set, hfa, hfb] at heq
      exact Option.noConfusion heq
  · have hfa : find_set ds x = none := find_set_none hx
    simp only [is_same_set, hfa] at heq
    exact Option.noConfusion heq

theorem link_set_WF2 {ds : DisjointSet} (h : WF ds) {a b : Nat} {p : Nat × DisjointSet}
    (heq : link_set ds a b = some p) : WF p.2 ∧ p.2.n = ds.n := by
  by_cases hg : a < ds.n ∧ b < ds.n ∧ ds.parent.getD a 0 = a ∧ ds.parent.getD b 0 = b ∧ a ≠ b
  · obtain ⟨nr, ds2, hl, _, hWF, hn, _⟩ :=
      link_set_spec h hg.1 hg.2.1 hg.2.2.1 hg.2.2.2.1 hg.2.2.2.2
    rw [hl] at heq
    cases heq
    exact ⟨hWF, hn⟩
  · unfold link_set at heq
    rw [if_neg hg] at heq
    cases heq

/-- The operations of the `CDisjointSet` public interface, as data, so that
arbitrary operation sequences can be quantified over. -/
inductive DSOp where
  | makeSets : DSOp
  | findSet : Nat → DSOp
  | unionSet : Nat → Nat → DSOp
  | linkSet : Nat → Nat → DSOp
  | isSameSet : Nat → Nat → DSOp

/-- Run one interface operation on the state.  A failing operation (out-of-range
id, `link_set` precondition violation) aborts without touching the state, per
the error-propagation policy of the spec. -/
def applyOp (ds : DisjointSet) : DSOp → DisjointSet
  | DSOp.makeSets => make_sets ds
  | DSOp.findSet x =>
    match find_set ds x with
    | none => ds
    | some p => p.2
  | DSOp.unionSet x y =>
    match union_set ds x y with
    | none => ds
    | some p => p.2
  | DSOp.linkSet a b =>
    match link_set ds a b with
    | none => ds
    | some p => p.2
  | DSOp.isSameSet x y =>
    match is_same_set ds x y with
    | none => ds
    | some p => p.2

/-- Run a sequence of interface operations from a given state. -/
def runOps (ds : DisjointSet) (ops : List DSOp) : DisjointSet :=
  ops.foldl applyOp ds

theorem applyOp_WF {ds : DisjointSet} (h : WF ds) (op : DSOp) :
    WF (applyOp ds op) ∧ (applyOp ds op).n = ds.n := by
  cases op with
  | makeSets => exact ⟨make_sets_WF ds, rfl⟩
  | findSet x =>
    simp only [applyOp]
    cases hf : find_set ds x with
    | none => exact ⟨h, rfl⟩
    | some p => exact find_set_WF2 h hf
  | unionSet x y =>
    simp only [applyOp]
    cases hf : union_set ds x y with
    | none => exact ⟨h, rfl⟩
    | some p => exact union_set_WF2 h hf
  | linkSet a b =>
    simp only [applyOp]
    cases hf : link_set ds a b with
    | none => exact ⟨h, rfl⟩
    | some p => exact link_set_WF2 h hf
  | isSameSet x y =>
    simp only [applyOp]
    cases hf : is_same_set ds x y with
    | none => exact ⟨h, rfl⟩
    | some p => exact is_same_set_WF2 h hf

theorem runOps_WF {ds : DisjointSet} (h : WF ds) :
    ∀ ops : List DSOp, WF (runOps ds ops) := by
  have main : ∀ (ops : List DSOp) (dt : DisjointSet), WF dt → WF (runOps dt ops) := by
    intro ops
    induction ops with
    | nil => intro dt hdt; exact hdt
    | cons op rest ih =>
      intro dt hdt
      exact ih (applyOp dt op) (applyOp_WF hdt op).1
  intro ops
  exact main ops ds h

/-! The factor-graph layer. -/

/-- The external Factor contract the core relies on, per the spec: an ordered
variable scope and an energy function evaluated on the sub-assignment gathered
in scope order.  Everything else about concrete factors is out of scope. -/
structure Factor where
  vars : List Nat
  energy : List Nat → ℚ

/-- Modelled from the spec: the `CFactorGraph` state — per-variable
cardinalities, insertion-ordered factor and data-source references, the lazily
constructed disjoint set, and the derived `has_cycle` / `num_edges` fields
(meaningful only after `connect_components`). -/
structure FactorGraph where
  cardinalities : List Nat
  factors : List Factor
  datasources : List Nat
  dset : Option DisjointSet
  hasCycle : Bool
  numEdges : Nat

/-- Modelled from the spec: the constructor taking the cardinality vector;
factors and data sources start empty and no topology has been derived. -/
def mkFactorGraph (card : List Nat) : FactorGraph :=
  ⟨card, [], [], none, false, 0⟩

/-- Modelled from the spec: `add_factor` appends, with no validation and no
duplicate detection. -/
def add_factor (fg : FactorGraph) (f : Factor) : FactorGraph :=
  { fg with factors := fg.factors ++ [f] }

/-- Modelled from the spec: `add_data_source` appends an opaque handle. -/
def add_data_source (fg : FactorGraph) (d : Nat) : FactorGraph :=
  { fg with datasources := fg.datasources ++ [d] }

/-- Modelled from the spec: plain accessor. -/
def get_cardinalities (fg : FactorGraph) : List Nat :=
  fg.cardinalities

/-- Modelled from the spec: plain mutator, no revalidation of factors. -/
def set_cardinalities (fg : FactorGraph) (cards : List Nat) : FactorGraph :=
  { fg with cardinalities := cards }

/-- Modelled from the spec: `get_num_vectors` is the factor count. -/
def get_num_vectors (fg : FactorGraph) : Nat :=
  fg.factors.length

/-- The sub-assignment of `state` gathered over `scope` in scope order. -/
def restrictScope (state : List Nat) (scope : List Nat) : List Nat :=
  scope.map (fun v => state.getD v 0)

/-- Modelled from the spec: `evaluate_energy(state)` requires
`state.length == num_variables` (shape mismatch fails clearly, here `none`);
it accumulates each factor's energy on the state restricted to the factor's
scope, with no normalization and no central domain checking. -/
def evaluate_energy (fg : FactorGraph) (state : List Nat) : Option ℚ :=
  if state.length = fg.cardinalities.length then
    some (fg.factors.foldl (fun acc f => acc + f.energy (restrictScope state f.vars)) 0)
  else none

/-- All unordered pairs of a scope, as ordered position pairs. -/
def scopePairs : List Nat → List (Nat × Nat)
  | [] => []
  | v :: vs => vs.map (fun w => (v, w)) ++ scopePairs vs

/-- Modelled from the spec: the edge loop of `connect_components` — for every
pair, increment the edge counter and union the endpoints, recording a cycle
whenever a union reports the endpoints already joined. -/
def processPairs : DisjointSet → Bool → Nat → List (Nat × Nat) →
    Option (DisjointSet × Bool × Nat)
  | ds, cyc, ne, [] => some (ds, cyc, ne)
  | ds, cyc, ne, (x, y) :: rest =>
    match union_set ds x y with
    | none => none
    | some (merged, ds2) => processPairs ds2 (cyc || !merged) (ne + 1) rest

/-- Modelled from the spec: `connect_components` builds a fresh DisjointSet
with one element per variable, runs the edge-union loop over every pair of
variables of every factor's scope, then marks the DisjointSet connected.
A factor scope referencing an out-of-range variable makes the underlying
`find_set` fail, which propagates. -/
def connect_components (fg : FactorGraph) : Option FactorGraph :=
  match processPairs (make_sets (mkDisjointSet fg.cardinalities.length)) false 0
      ((fg.factors.map (fun f => scopePairs f.vars)).flatten) with
  | none => none
  | some (ds, cyc, ne) =>
    some { fg with dset := some (set_connected ds true), hasCycle := cyc, numEdges := ne }

/-- Modelled from the spec: `get_num_edges` reads the derived counter (0 before
any analysis has run). -/
def get_num_edges (fg : FactorGraph) : Nat :=
  fg.numEdges

/-- Modelled from the spec: `is_acyclic_graph` is the negation of the cycle
flag once topology has been derived; before `connect_components` has run the
query is not an error and yields the default value `false`. -/
def is_acyclic_graph (fg : FactorGraph) : Bool :=
  match fg.dset with
  | none => false
  | some _ => !fg.hasCycle

/-- Modelled from the spec: `is_connected_graph` asks the disjoint set whether
there is exactly one component; before `connect_components` has run the query
is not an error and yields the default value `false`. -/
def is_connected_graph (fg : FactorGraph) : Bool :=
  match fg.dset with
  | none => false
  | some d => decide (get_num_sets d = 1)

/-- Modelled from the spec: a tree is acyclic and connected. -/
def is_tree_graph (fg : FactorGraph) : Bool :=
  is_acyclic_graph fg && is_connected_graph fg

/-- Modelled from the spec: `duplicate` copies cardinalities by value, shares
the factor and data-source references (modelled by reusing the same
collections), and does not copy the derived topology state. -/
def duplicate (fg : FactorGraph) : FactorGraph :=
  ⟨fg.cardinalities, fg.factors, fg.datasources, none, false, 0⟩

/-- Feature-type tags of the surrounding library (only the members needed
here). -/
inductive EFeatureType where
  | F_ANY : EFeatureType
  | F_DREAL : EFeatureType
deriving DecidableEq

/-- Feature-class tags of the surrounding library (only the members needed
here). -/
inductive EFeatureClass where
  | C_ANY : EFeatureClass
  | C_DENSE : EFeatureClass
deriving DecidableEq

/-- From the header (`FactorGraph.h`, line 95): `get_feature_type` always
returns `F_ANY`. -/
def get_feature_type (_ : FactorGraph) : EFeatureType :=
  EFeatureType.F_ANY

/-- From the header (`FactorGraph.h`, line 98): `get_feature_class` always
returns `C_ANY`. -/
def get_feature_class (_ : FactorGraph) : EFeatureClass :=
  EFeatureClass.C_ANY

/-- The union results of an edge list replayed in order, following the claim's
phrasing: the sequence of booleans returned by the `union_set` calls. -/
def unionSeq : DisjointSet → List (Nat × Nat) → Option (List Bool × DisjointSet)
  | ds, [] => some ([], ds)
  | ds, (x, y) :: rest =>
    match union_set ds x y with
    | none => none
    | some (b, ds2) =>
      match unionSeq ds2 rest with
      | none => none
      | some (bs, ds3) => some (b :: bs, ds3)

/-! Lemmas about the factor-graph layer. -/

theorem foldl_add_map_sum (E : Factor → ℚ) :
    ∀ (l : List Factor) (a : ℚ), l.foldl (fun acc f => acc + E f) a = a + (l.map E).sum := by
  intro l
  induction l with
  | nil => intro a; simp
  | cons f rest ih =>
    intro a
    rw [List.foldl_cons, ih, List.map_cons, List.sum_cons]
    ring

theorem processPairs_eq_unionSeq :
    ∀ (ps : List (Nat × Nat)) (ds : DisjointSet) (cyc : Bool) (ne : Nat),
      processPairs ds cyc ne ps =
        (unionSeq ds ps).map
          (fun r => (r.2, cyc || r.1.any (fun b => !b), ne + ps.length)) := by
  intro ps
  induction ps with
  | nil =>
    intro ds cyc ne
    simp [processPairs, unionSeq]
  | cons p rest ih =>
    intro ds cyc ne
    obtain ⟨x, y⟩ := p
    cases hu : union_set ds x y with
    | none =>
      have hpp : processPairs ds cyc ne ((x, y) :: rest) = none := by
        rw [processPairs, hu]
      have hus : unionSeq ds ((x, y) :: rest) = none := by
        simp only [unionSeq, hu]
      rw [hpp, hus]
      rfl
    | some q =>
      obtain ⟨b, ds2⟩ := q
      have hpp : processPairs ds cyc ne ((x, y) :: rest) =
          processPairs ds2 (cyc || !b) (ne + 1) rest := by
        rw [processPairs, hu]
      rw [hpp, ih ds2 (cyc || !b) (ne + 1)]
      cases hs : unionSeq ds2 rest with
      | none =>
        have hus : unionSeq ds ((x, y) :: rest) = none := by
          simp only [unionSeq, hu, hs]
        rw [hus]
        rfl
      | some r =>
        obtain ⟨bs, ds3⟩ := r
        have hus : unionSeq ds ((x, y) :: rest) = some (b :: bs, ds3) := by
          simp only [unionSeq, hu, hs]
        rw [hus]
        show some (ds3, cyc || !b || bs.any fun c => !c, ne + 1 + rest.length) =
          some (ds3, cyc || (b :: bs).any fun c => !c, ne + ((x, y) :: rest).length)
        refine congrArg some (congrArg₂ Prod.mk rfl (congrArg₂ Prod.mk ?_ ?_))
        · show (cyc || !b || bs.any (fun c => !c)) = (cyc || (b :: bs).any (fun c => !c))
          rw [List.any_cons, Bool.or_assoc]
        · show ne + 1 + rest.length = ne + ((x, y) :: rest).length
          rw [List.length_cons]
          omega

theorem scopePairs_length (l : List Nat) :
    (scopePairs l).length = Nat.choose l.length 2 := by
  induction l with
  | nil => rfl
  | cons v vs ih =>
    rw [scopePairs, List.length_append, List.length_map, ih, List.length_cons]
    rw [Nat.choose_succ_succ vs.length 1, Nat.choose_one_right]

theorem processPairs_WF :
    ∀ (ps : List (Nat × Nat)) {ds : DisjointSet} (h : WF ds) {cyc : Bool} {ne : Nat}
      {out : DisjointSet × Bool × Nat},
      processPairs ds cyc ne ps = some out → WF out.1 ∧ out.1.n = ds.n := by
  intro ps
  induction ps with
  | nil =>
    intro ds h cyc ne out heq
    rw [processPairs] at heq
    cases heq
    exact ⟨h, rfl⟩
  | cons p rest ih =>
    intro ds h cyc ne out heq
    obtain ⟨x, y⟩ := p
    rw [processPairs] at heq
    cases hu : union_set ds x y with
    | none => rw [hu] at heq; exact Option.noConfusion heq
    | some q =>
      rw [hu] at heq
      obtain ⟨hWF2, hn2⟩ := union_set_WF2 h hu
      obtain ⟨hWFo, hno⟩ := ih hWF2 heq
      exact ⟨hWFo, by rw [hno, hn2]⟩

theorem connect_components_flags_congr {fa fb : FactorGraph}
    (hc : fa.cardinalities = fb.cardinalities) (hf : fa.factors = fb.factors) :
    (connect_components fa).map (fun g => (g.hasCycle, g.numEdges, g.dset)) =
      (connect_components fb).map (fun g => (g.hasCycle, g.numEdges, g.dset)) := by
  unfold connect_components
  rw [hc, hf]
  cases processPairs (make_sets (mkDisjointSet fb.cardinalities.length)) false 0
      ((fb.factors.map (fun f => scopePairs f.vars)).flatten) with
  | none => rfl
  | some t =>
    obtain ⟨ds, cyc, ne⟩ := t
    rfl

/-- A graph built by appending factors and data sources to a fresh graph,
with `connect_components` never invoked. -/
def buildGraph (card : List Nat) (fs : List Factor) (dss : List Nat) : FactorGraph :=
  dss.foldl add_data_source (fs.foldl add_factor (mkFactorGraph card))

theorem buildGraph_fields (card : List Nat) (fs : List Factor) (dss : List Nat) :
    (buildGraph card fs dss).dset = none ∧ (buildGraph card fs dss).hasCycle = false ∧
      (buildGraph card fs dss).numEdges = 0 := by
  have h1 : ∀ (l : List Factor) (g : FactorGraph),
      (l.foldl add_factor g).dset = g.dset ∧ (l.foldl add_factor g).hasCycle = g.hasCycle ∧
        (l.foldl add_factor g).numEdges = g.numEdges := by
    intro l
    induction l with
    | nil => intro g; exact ⟨rfl, rfl, rfl⟩
    | cons f rest ih =>
      intro g
      rw [List.foldl_cons]
      exact ih (add_factor g f)
  have h2 : ∀ (l : List Nat) (g : FactorGraph),
      (l.foldl add_data_source g).dset = g.dset ∧
        (l.foldl add_data_source g).hasCycle = g.hasCycle ∧
        (l.foldl add_data_source g).numEdges = g.numEdges := by
    intro l
    induction l with
    | nil => intro g; exact ⟨rfl, rfl, rfl⟩
    | cons d rest ih =>
      intro g
      rw [List.foldl_cons]
      exact ih (add_data_source g d)
  unfold buildGraph
  obtain ⟨ha, hb, hc⟩ := h2 dss (fs.foldl add_factor (mkFactorGraph card))
  obtain ⟨hd, he, hf⟩ := h1 fs (mkFactorGraph card)
  exact ⟨by rw [ha, hd]; rfl, by rw [hb, he]; rfl, by rw [hc, hf]; rfl⟩

/-! Concrete instances used by the claim witnesses. -/

/-- A unary factor with constant energy 3. -/
def egFactorA : Factor :=
  ⟨[0], fun _ => 3⟩

/-- A binary factor with constant energy 5. -/
def egFactorB : Factor :=
  ⟨[0, 1], fun _ => 5⟩

/-- A two-variable graph carrying the two constant factors. -/
def egFG : FactorGraph :=
  add_factor (add_factor (mkFactorGraph [2, 2]) egFactorA) egFactorB

/-- The triangle graph of the spec's test list: cardinalities `[2,2,2]` and
three pairwise binary factors with scopes `{0,1}`, `{1,2}`, `{0,2}`. -/
def triangleFG : FactorGraph :=
  add_factor (add_factor (add_factor (mkFactorGraph [2, 2, 2])
    ⟨[0, 1], fun _ => 0⟩) ⟨[1, 2], fun _ => 0⟩) ⟨[0, 2], fun _ => 0⟩

/-- The triangle graph after `connect_components`. -/
def triangleAnalyzed : FactorGraph :=
  (connect_components triangleFG).getD (mkFactorGraph [])

/-- A three-element disjoint-set state with a two-step parent chain
`0 → 1 → 2` (used to exercise path compression). -/
def chainDS : DisjointSet :=
  ⟨3, [1, 2, 2], [0, 1, 2], false⟩

/-- A three-element disjoint-set state with components `{0, 1}` and `{2}`. -/
def twoCompDS : DisjointSet :=
  ⟨3, [0, 0, 2], [1, 0, 0], false⟩

/-! Claim theorems. -/

/-- Claim C1: for every factor graph and every complete assignment `state`
with `state.length == num_variables`, `evaluate_energy state` is exactly the
sum over the factors of the factor's energy applied to `state` restricted to
the factor's scope in scope order — no normalization, and no central domain
check (the equation holds for every state of the right length, whatever the
values). -/
theorem claim_evaluate_energy_additive (fg : FactorGraph) (state : List Nat)
    (h : state.length = fg.cardinalities.length) :
    evaluate_energy fg state =
      some ((fg.factors.map (fun f => f.energy (restrictScope state f.vars))).sum) := by
  unfold evaluate_energy
  rw [if_pos h,
    foldl_add_map_sum (fun f => f.energy (restrictScope state f.vars)) fg.factors 0, zero_add]

/-- Witness for C1 at the two-factor example graph and the state `[0, 1]`. -/
theorem claim_evaluate_energy_additive_witness :
    ([0, 1] : List Nat).length = egFG.cardinalities.length ∧
      evaluate_energy egFG [0, 1] =
        some ((egFG.factors.map (fun f => f.energy (restrictScope [0, 1] f.vars))).sum) :=
  ⟨rfl, claim_evaluate_energy_additive egFG [0, 1] rfl⟩

/-- Claim C3: on the triangle graph (cardinalities `[2,2,2]`, binary factors
`{0,1}`, `{1,2}`, `{0,2}`), `connect_components` succeeds and afterwards
`get_num_edges = 3`, `is_connected_graph = true`, `is_acyclic_graph = false`
and `is_tree_graph = false`. -/
theorem claim_triangle_topology :
    (connect_components triangleFG).map
        (fun g => (get_num_edges g, is_connected_graph g, is_acyclic_graph g, is_tree_graph g)) =
      some (3, true, false, false) := by
  decide

/-- Claim C8: querying `is_acyclic_graph`, `is_connected_graph` or
`get_num_edges` on a graph on which `connect_components` has never run — no
matter which factors and data sources were added — is not an error: the
queries are total and return the default values `false`, `false` and `0`. -/
theorem claim_pre_analysis_defaults (card : List Nat) (fs : List Factor) (dss : List Nat) :
    is_acyclic_graph (buildGraph card fs dss) = false ∧
      is_connected_graph (buildGraph card fs dss) = false ∧
      get_num_edges (buildGraph card fs dss) = 0 := by
  obtain ⟨h1, h2, h3⟩ := buildGraph_fields card fs dss
  refine ⟨?_, ?_, h3⟩
  · unfold is_acyclic_graph
    rw [h1]
  · unfold is_connected_graph
    rw [h1]

/-- Claim C9: `duplicate` copies the cardinalities by value, shares the factor
and data-source collections with the original, resets (does not copy) the
derived topology state, evaluates every state to the same energy as the
original, and recomputing the topology on the duplicate yields the same flags
as recomputing it on the original. -/
theorem claim_duplicate_contract (fg : FactorGraph) :
    (duplicate fg).cardinalities = fg.cardinalities ∧
      (duplicate fg).factors = fg.factors ∧
      (duplicate fg).datasources = fg.datasources ∧
      (duplicate fg).dset = none ∧
      (duplicate fg).hasCycle = false ∧
      (duplicate fg).numEdges = 0 ∧
      (∀ state, evaluate_energy (duplicate fg) state = evaluate_energy fg state) ∧
      (connect_components (duplicate fg)).map (fun g => (g.hasCycle, g.numEdges, g.dset)) =
        (connect_components fg).map (fun g => (g.hasCycle, g.numEdges, g.dset)) :=
  ⟨rfl, rfl, rfl, rfl, rfl, rfl, fun _ => rfl, connect_components_flags_congr rfl rfl⟩

/-- Claim C10: `get_feature_type` and `get_feature_class` are constant for
every factor-graph instance, returning `F_ANY` and `C_ANY` regardless of
cardinalities, factors, or topology state. -/
theorem claim_feature_tags_constant (fg : FactorGraph) :
    get_feature_type fg = EFeatureType.F_ANY ∧ get_feature_class fg = EFeatureClass.C_ANY :=
  ⟨rfl, rfl⟩

/-- Claim C2: whenever `connect_components` succeeds it has built a fresh
DisjointSet with one element per variable and left it marked connected; the
edge counter equals the number of scope pairs, i.e. the sum over the factors
of `(scope size choose 2)`; and the cycle flag is set exactly when one of the
`union_set` calls of the pair loop returned `false` (pairs exist only for
factors of scope size at least 2, so the flag can only be raised while
processing such a factor). -/
theorem claim_connect_components_contract (fg fg2 : FactorGraph)
    (h : connect_components fg = some fg2) :
    fg2.numEdges = (fg.factors.map (fun f => Nat.choose f.vars.length 2)).sum ∧
      (∃ ds, fg2.dset = some ds ∧ ds.connected = true ∧ ds.n = fg.cardinalities.length) ∧
      (∃ bs dsf,
        unionSeq (make_sets (mkDisjointSet fg.cardinalities.length))
            ((fg.factors.map (fun f => scopePairs f.vars)).flatten) = some (bs, dsf) ∧
          (fg2.hasCycle = true ↔ false ∈ bs)) := by
  unfold connect_components at h
  cases hp : processPairs (make_sets (mkDisjointSet fg.cardinalities.length)) false 0
      ((fg.factors.map (fun f => scopePairs f.vars)).flatten) with
  | none => rw [hp] at h; exact Option.noConfusion h
  | some t =>
    obtain ⟨ds, cyc, ne⟩ := t
    rw [hp] at h
    have hsome : some { fg with dset := some (set_connected ds true), hasCycle := cyc, numEdges := ne } = some fg2 := h
    have hfg2 : fg2 = { fg with dset := some (set_connected ds true), hasCycle := cyc, numEdges := ne } := by
      injection hsome with h3
      exact h3.symm
    subst hfg2
    have hrel := processPairs_eq_unionSeq
      ((fg.factors.map (fun f => scopePairs f.vars)).flatten)
      (make_sets (mkDisjointSet fg.cardinalities.length)) false 0
    rw [hp] at hrel
    cases hs : unionSeq (make_sets (mkDisjointSet fg.cardinalities.length))
        ((fg.factors.map (fun f => scopePairs f.vars)).flatten) with
    | none =>
      rw [hs] at hrel
      exact Option.noConfusion hrel
    | some r =>
      obtain ⟨bs, dsf⟩ := r
      rw [hs] at hrel
      have hds : ds = dsf ∧ cyc = (false || bs.any (fun b => !b)) ∧
          ne = 0 + ((fg.factors.map (fun f => scopePairs f.vars)).flatten).length := by
        have h1 := hrel.symm
        injection h1 with h2
        injection h2 with h3 h4
        injection h4 with h5 h6
        exact ⟨h3.symm, h5.symm, h6.symm⟩
      obtain ⟨hds1, hds2, hds3⟩ := hds
      refine ⟨?_, ?_, bs, dsf, rfl, ?_⟩
      · show ne = _
        rw [hds3, Nat.zero_add, List.length_flatten, List.map_map]
        congr 1
        apply List.map_congr_left
        intro f _
        exact scopePairs_length f.vars
      · refine ⟨set_connected ds true, rfl, rfl, ?_⟩
        show ds.n = fg.cardinalities.length
        have hWF0 := make_sets_WF (mkDisjointSet fg.cardinalities.length)
        have := processPairs_WF _ hWF0 hp
        exact this.2
      · show cyc = true ↔ false ∈ bs
        rw [hds2, Bool.false_or, List.any_eq_true]
        constructor
        · rintro ⟨b, hb, hbt⟩
          rw [Bool.not_eq_true'] at hbt
          rw [← hbt]
          exact hb
        · intro hmem
          exact ⟨false, hmem, rfl⟩

/-- Witness for C2 at the triangle graph. -/
theorem claim_connect_components_contract_witness :
    connect_components triangleFG = some triangleAnalyzed ∧
      (triangleAnalyzed.numEdges =
          (triangleFG.factors.map (fun f => Nat.choose f.vars.length 2)).sum ∧
        (∃ ds, triangleAnalyzed.dset = some ds ∧ ds.connected = true ∧
          ds.n = triangleFG.cardinalities.length) ∧
        (∃ bs dsf,
          unionSeq (make_sets (mkDisjointSet triangleFG.cardinalities.length))
              ((triangleFG.factors.map (fun f => scopePairs f.vars)).flatten) =
            some (bs, dsf) ∧
            (triangleAnalyzed.hasCycle = true ↔ false ∈ bs))) :=
  ⟨rfl, claim_connect_components_contract triangleFG triangleAnalyzed rfl⟩

/-- Claim C4: on a well-formed state, for in-range x and y, `union_set x y`
succeeds; it returns `false` exactly when x and y already share a root, and in
that case no element's representative changes (path compression may rewire
parent pointers, but every element keeps its root); otherwise it links the two
roots (the merged class is rooted at one of the two old roots) and returns
`true`.  Moreover, afterwards `is_same_set x y` reports `true`, and a second
`union_set y x` returns `false`. -/
theorem claim_union_set_contract (ds : DisjointSet) (h : WF ds) (x y : Nat)
    (hx : x < ds.n) (hy : y < ds.n) :
    ∃ b ds2, union_set ds x y = some (b, ds2) ∧
      (b = false ↔ rootOf ds x = rootOf ds y) ∧
      (b = false → ∀ z, z < ds.n → rootOf ds2 z = rootOf ds z) ∧
      (b = true → rootOf ds2 x = rootOf ds2 y ∧
        (rootOf ds2 x = rootOf ds x ∨ rootOf ds2 x = rootOf ds y)) ∧
      (∃ b2 ds3, is_same_set ds2 x y = some (b2, ds3) ∧ b2 = true) ∧
      (∃ b3 ds4, union_set ds2 y x = some (b3, ds4) ∧ b3 = false) := by
  obtain ⟨b, ds2, hu, hWF2, hn2, hb, hxy2, _, hpres, hmerge⟩ := union_set_spec h hx hy
  have hx2 : x < ds2.n := by rw [hn2]; exact hx
  have hy2 : y < ds2.n := by rw [hn2]; exact hy
  refine ⟨b, ds2, hu, ?_, ?_, ?_, ?_, ?_⟩
  · rw [hb]
    simp
  · intro hbf
    rw [hb] at hbf
    simp at hbf
    exact hpres hbf
  · intro hbt
    rw [hb] at hbt
    simp at hbt
    exact ⟨hxy2, hmerge hbt⟩
  · obtain ⟨ds3, hss, _, _, _⟩ := is_same_set_spec hWF2 hx2 hy2
    refine ⟨_, ds3, hss, ?_⟩
    simp [hxy2]
  · obtain ⟨b3, ds4, hu2, _, _, hb3, _⟩ := union_set_spec hWF2 hy2 hx2
    refine ⟨b3, ds4, hu2, ?_⟩
    rw [hb3]
    simp [hxy2]

/-- Witness for C4 on the fresh two-element state with x = 0, y = 1. -/
theorem claim_union_set_contract_witness :
    WF (make_sets (mkDisjointSet 2)) ∧
      ∃ b ds2, union_set (make_sets (mkDisjointSet 2)) 0 1 = some (b, ds2) ∧
        (b = false ↔ rootOf (make_sets (mkDisjointSet 2)) 0 =
          rootOf (make_sets (mkDisjointSet 2)) 1) ∧
        (b = false → ∀ z, z < (make_sets (mkDisjointSet 2)).n →
          rootOf ds2 z = rootOf (make_sets (mkDisjointSet 2)) z) ∧
        (b = true → rootOf ds2 0 = rootOf ds2 1 ∧
          (rootOf ds2 0 = rootOf (make_sets (mkDisjointSet 2)) 0 ∨
            rootOf ds2 0 = rootOf (make_sets (mkDisjointSet 2)) 1)) ∧
        (∃ b2 ds3, is_same_set ds2 0 1 = some (b2, ds3) ∧ b2 = true) ∧
        (∃ b3 ds4, union_set ds2 1 0 = some (b3, ds4) ∧ b3 = false) :=
  ⟨by decide, claim_union_set_contract (make_sets (mkDisjointSet 2)) (by decide) 0 1
    (by decide) (by decide)⟩

/-- Claim C5: on a well-formed state, `find_set x` for in-range x returns the
self-parented root of x's set, relinks exactly the nodes visited on the
parent path directly to that root (leaving all other parent entries, and in
particular the induced partition, unchanged); for x outside `[0, n)` the call
fails with `none` instead of returning a value. -/
theorem claim_find_set_contract (ds : DisjointSet) (h : WF ds) (x : Nat) :
    (x < ds.n → ∃ ds2, find_set ds x = some (rootOf ds x, ds2) ∧
      ds.parent.getD (rootOf ds x) 0 = rootOf ds x ∧ rootOf ds x < ds.n ∧
      (∀ z, z ∈ pathAux ds.parent (ds.n + 1) x → ds2.parent.getD z 0 = rootOf ds x) ∧
      (∀ z, z ∉ pathAux ds.parent (ds.n + 1) x → ds2.parent.getD z 0 = ds.parent.getD z 0) ∧
      (∀ z, z < ds.n → rootOf ds2 z = rootOf ds z)) ∧
    (ds.n ≤ x → find_set ds x = none) := by
  constructor
  · intro hx
    obtain ⟨ds2, hf, _, _, _, _, hpres, hpath, hoff⟩ := find_set_spec_aux h hx
    exact ⟨ds2, hf, rootOf_isRoot h hx, rootOf_lt h hx, hpath, hoff, hpres⟩
  · intro hge
    exact find_set_none (Nat.not_lt.mpr hge)

/-- Witness for C5 on the chain `0 → 1 → 2` at x = 0 (a two-step path that
actually gets compressed). -/
theorem claim_find_set_contract_witness :
    WF chainDS ∧
      ((0 < chainDS.n → ∃ ds2, find_set chainDS 0 = some (rootOf chainDS 0, ds2) ∧
        chainDS.parent.getD (rootOf chainDS 0) 0 = rootOf chainDS 0 ∧
        rootOf chainDS 0 < chainDS.n ∧
        (∀ z, z ∈ pathAux chainDS.parent (chainDS.n + 1) 0 →
          ds2.parent.getD z 0 = rootOf chainDS 0) ∧
        (∀ z, z ∉ pathAux chainDS.parent (chainDS.n + 1) 0 →
          ds2.parent.getD z 0 = chainDS.parent.getD z 0) ∧
        (∀ z, z < chainDS.n → rootOf ds2 z = rootOf chainDS z)) ∧
      (chainDS.n ≤ 0 → find_set chainDS 0 = none)) :=
  ⟨by decide, claim_find_set_contract chainDS (by decide) 0⟩

/-- Claim C6: starting from freshly initialized singletons, after any sequence
of `make_sets`, `union_set`, `link_set`, `find_set` and `is_same_set`
operations, the parent structure is still a valid forest: from every element,
repeated parent-following reaches a self-parented root within `n` steps (the
fuel `n + 1` suffices), so the parent map never contains a cycle. -/
theorem claim_forest_invariant (numElems : Nat) (ops : List DSOp) (x : Nat)
    (hx : x < (runOps (make_sets (mkDisjointSet numElems)) ops).n) :
    ∃ r, findRootAux (runOps (make_sets (mkDisjointSet numElems)) ops).parent
        ((runOps (make_sets (mkDisjointSet numElems)) ops).n + 1) x = some r ∧
      (runOps (make_sets (mkDisjointSet numElems)) ops).parent.getD r 0 = r := by
  have hWF : WF (runOps (make_sets (mkDisjointSet numElems)) ops) :=
    runOps_WF (make_sets_WF (mkDisjointSet numElems)) ops
  exact ⟨rootOf (runOps (make_sets (mkDisjointSet numElems)) ops) x,
    rootOf?_eq_some hWF hx, rootOf_isRoot hWF hx⟩

/-- Witness for C6: three elements, a union, a compressing find, a same-set
query and a precondition-violating link, then element 2. -/
theorem claim_forest_invariant_witness :
    2 < (runOps (make_sets (mkDisjointSet 3))
        [DSOp.unionSet 0 1, DSOp.findSet 0, DSOp.isSameSet 1 2, DSOp.linkSet 0 0]).n ∧
      ∃ r, findRootAux (runOps (make_sets (mkDisjointSet 3))
          [DSOp.unionSet 0 1, DSOp.findSet 0, DSOp.isSameSet 1 2, DSOp.linkSet 0 0]).parent
          ((runOps (make_sets (mkDisjointSet 3))
            [DSOp.unionSet 0 1, DSOp.findSet 0, DSOp.isSameSet 1 2, DSOp.linkSet 0 0]).n + 1)
          2 = some r ∧
        (runOps (make_sets (mkDisjointSet 3))
          [DSOp.unionSet 0 1, DSOp.findSet 0, DSOp.isSameSet 1 2,
            DSOp.linkSet 0 0]).parent.getD r 0 = r :=
  ⟨by decide, claim_forest_invariant 3
    [DSOp.unionSet 0 1, DSOp.findSet 0, DSOp.isSameSet 1 2, DSOp.linkSet 0 0] 2 (by decide)⟩

/-- Claim C7: on a well-formed state, `get_unique_labeling` assigns each of
the `N` elements a label below `k`, two elements get the same label exactly
when they share a root (equivalently, exactly when `is_same_set` reports
true), the returned `k` equals `get_num_sets`, and labels are handed out in
first-seen order over the scan of elements `0..N-1` (the sequence of distinct
labels, in order of first appearance, is `0, 1, ..., k-1`), so the labeling
is determined by the element ordering. -/
theorem claim_unique_labeling_contract (ds : DisjointSet) (h : WF ds) :
    (get_unique_labeling ds).1.length = ds.n ∧
      (get_unique_labeling ds).2 = get_num_sets ds ∧
      (∀ i, i < ds.n → (get_unique_labeling ds).1.getD i 0 < (get_unique_labeling ds).2) ∧
      (∀ i j, i < ds.n → j < ds.n →
        ((get_unique_labeling ds).1.getD i 0 = (get_unique_labeling ds).1.getD j 0 ↔
          rootOf ds i = rootOf ds j)) ∧
      (∀ i j, i < ds.n → j < ds.n →
        ∃ b ds2, is_same_set ds i j = some (b, ds2) ∧
          (b = true ↔
            (get_unique_labeling ds).1.getD i 0 = (get_unique_labeling ds).1.getD j 0)) ∧
      firstSeen (get_unique_labeling ds).1 = List.range (get_unique_labeling ds).2 := by
  have hrlen : ((List.range ds.n).map (rootOf ds)).length = ds.n := by
    rw [List.length_map, List.length_range]
  have hout1 : (get_unique_labeling ds).1 =
      ((List.range ds.n).map (rootOf ds)).map
        (fun r => (firstSeen ((List.range ds.n).map (rootOf ds))).indexOf r) := rfl
  have hout2 : (get_unique_labeling ds).2 =
      (firstSeen ((List.range ds.n).map (rootOf ds))).length := rfl
  have hmemroots : ∀ i, i < ds.n → rootOf ds i ∈ (List.range ds.n).map (rootOf ds) := by
    intro i hi
    exact List.mem_map.mpr ⟨i, List.mem_range.mpr hi, rfl⟩
  have hmemfs : ∀ i, i < ds.n →
      rootOf ds i ∈ firstSeen ((List.range ds.n).map (rootOf ds)) := by
    intro i hi
    rw [mem_firstSeen]
    exact hmemroots i hi
  have hlab : ∀ i, i < ds.n → (get_unique_labeling ds).1.getD i 0 =
      (firstSeen ((List.range ds.n).map (rootOf ds))).indexOf (rootOf ds i) := by
    intro i hi
    rw [hout1]
    rw [getD_map_lt _ _ (by rw [hrlen]; exact hi)]
    congr 1
    rw [getD_map_lt (rootOf ds) (List.range ds.n) (by rw [List.length_range]; exact hi)]
    rw [getD_range ds.n i hi]
  refine ⟨?_, ?_, ?_, ?_, ?_, ?_⟩
  · rw [hout1, List.length_map, hrlen]
  · rw [hout2]
    exact firstSeen_length_eq_dedup ((List.range ds.n).map (rootOf ds))
  · intro i hi
    rw [hlab i hi, hout2]
    exact List.indexOf_lt_length.mpr (hmemfs i hi)
  · intro i j hi hj
    rw [hlab i hi, hlab j hj]
    exact indexOf_inj (hmemfs i hi) (hmemfs j hj)
  · intro i j hi hj
    obtain ⟨ds2, hss, _, _, _⟩ := is_same_set_spec h hi hj
    refine ⟨decide (rootOf ds i = rootOf ds j), ds2, hss, ?_⟩
    rw [hlab i hi, hlab j hj]
    constructor
    · intro hb
      rw [decide_eq_true_eq] at hb
      rw [hb]
    · intro hl
      rw [decide_eq_true_eq]
      exact (indexOf_inj (hmemfs i hi) (hmemfs j hj)).mp hl
  · rw [hout1, hout2]
    have hinj : ∀ a, a ∈ (List.range ds.n).map (rootOf ds) →
        ∀ b, b ∈ (List.range ds.n).map (rootOf ds) →
        (firstSeen ((List.range ds.n).map (rootOf ds))).indexOf a =
          (firstSeen ((List.range ds.n).map (rootOf ds))).indexOf b → a = b := by
      intro a ha b hb hab
      exact (indexOf_inj ((mem_firstSeen a _).mpr ha) ((mem_firstSeen b _).mpr hb)).mp hab
    rw [firstSeen_map (fun r => (firstSeen ((List.range ds.n).map (rootOf ds))).indexOf r)
      ((List.range ds.n).map (rootOf ds)).length ((List.range ds.n).map (rootOf ds))
      le_rfl hinj]
    exact map_indexOf_self (firstSeen ((List.range ds.n).map (rootOf ds)))
      (firstSeen_nodup ((List.range ds.n).map (rootOf ds)))

/-- Witness for C7 on the three-element state with components `{0, 1}` and
`{2}`. -/
theorem claim_unique_labeling_contract_witness :
    WF twoCompDS ∧
      ((get_unique_labeling twoCompDS).1.length = twoCompDS.n ∧
        (get_unique_labeling twoCompDS).2 = get_num_sets twoCompDS ∧
        (∀ i, i < twoCompDS.n → (get_unique_labeling twoCompDS).1.getD i 0 <
          (get_unique_labeling twoCompDS).2) ∧
        (∀ i j, i < twoCompDS.n → j < twoCompDS.n →
          ((get_unique_labeling twoCompDS).1.getD i 0 =
              (get_unique_labeling twoCompDS).1.getD j 0 ↔
            rootOf twoCompDS i = rootOf twoCompDS j)) ∧
        (∀ i j, i < twoCompDS.n → j < twoCompDS.n →
          ∃ b ds2, is_same_set twoCompDS i j = some (b, ds2) ∧
            (b = true ↔ (get_unique_labeling twoCompDS).1.getD i 0 =
              (get_unique_labeling twoCompDS).1.getD j 0)) ∧
        firstSeen (get_unique_labeling twoCompDS).1 =
          List.range (get_unique_labeling twoCompDS).2) :=
  ⟨by decide, claim_unique_labeling_contract twoCompDS (by decide)⟩

end Shogun
